import Mathlib

/-!
Verification of the card-selection core of a Telegram flashcard bot
(`db.py` / `bot.py`): weight computation, weighted sampling,
distractor-option generation, answer grading, progress recording and
user-word insertion, modelled as pure Lean functions over explicit
database state and an explicit random source.
-/

namespace FlashcardBot

/-- One row of the candidate query in `Database.get_random_card`:
`en_word, ru_word, word_type, word_ref_id, correct_count, incorrect_count`,
where the progress counters are `NULL` (here `none`) when the user has no
progress row for the word. -/
structure WordRow where
  en_word : String
  ru_word : String
  word_type : String
  word_ref_id : Int
  correct_count : Option Nat
  incorrect_count : Option Nat
deriving DecidableEq, Repr

/-- The per-word dictionary built into `population` in
`Database.get_random_card` (`word_info`). -/
structure WordInfo where
  en_word : String
  ru_word : String
  word_type : String
  word_ref_id : Int
deriving DecidableEq, Repr

/-- The card dictionary returned by `Database.get_random_card`. -/
structure Card where
  en_word : String
  ru_word : String
  options : List String
  word_type : String
  word_ref_id : Int
deriving DecidableEq, Repr

/-- Weight computation of `Database.get_random_card` (db.py lines 215-222):
`correct_count`/`incorrect_count` default to 0 when `NULL`; `weight = 1`;
if both counters are 0 the weight is 10; else if `incorrect_count > 0` the
weight is `5 + incorrect_count * 2 - correct_count`; else if
`correct_count > 0` the weight is `max(1, 5 - correct_count)`; finally the
result is `max(1, weight)`. -/
def computeWeight (correct_c incorrect_c : Option Nat) : Int :=
  let correct_count : Int := (correct_c.getD 0 : Nat)
  let incorrect_count : Int := (incorrect_c.getD 0 : Nat)
  let weight : Int :=
    if correct_count = 0 ∧ incorrect_count = 0 then 10
    else if incorrect_count > 0 then 5 + incorrect_count * 2 - correct_count
    else if correct_count > 0 then max 1 (5 - correct_count)
    else 1
  max 1 weight

/-- Failures of the storage layer: `StoreUnavailable` (no live connection)
and `QueryFailure` (a storage operation raised during execution). -/
inductive DbError where
  | storeUnavailable
  | queryFailure
deriving DecidableEq, Repr

/-- Explicit random source consumed by `get_random_card`:
`u` is the uniform value in `[0,1)` drawn by `random.random()` inside
`random.choices`; `choiceIdx` drives the `random.choice` fallback;
`samplePick` drives `random.sample`; `shufflePick` drives
`random.shuffle`. -/
structure Rand where
  u : ℚ
  choiceIdx : Nat
  samplePick : Nat → Nat
  shufflePick : Nat → Nat

/-- Running totals of a weight list, as `itertools.accumulate` produces
them inside `random.choices`: entry `i` is the sum of the first `i+1`
weights (shifted by the accumulator `acc`). -/
def cumWeightsFrom (acc : Int) : List Int → List Int
  | [] => []
  | w :: ws => (acc + w) :: cumWeightsFrom (acc + w) ws

/-- `cum_weights = list(accumulate(weights))` of `random.choices`. -/
def cumWeights (weights : List Int) : List Int := cumWeightsFrom 0 weights

/-- `bisect.bisect_right` on an integer list against a rational key,
restricted to the slice `[lo, hi)`: returns the insertion point, i.e. the
first index `k` in `[lo, hi]` with `x < a[k]` (taking `hi` when there is
none). Fuel-driven so that it computes by structural recursion; the fuel
`hi - lo` supplied by `bisectRight` always suffices. -/
def bisectRightAux (a : List Int) (x : ℚ) : Nat → Nat → Nat → Nat
  | 0, lo, _ => lo
  | fuel + 1, lo, hi =>
    if lo < hi then
      let mid := (lo + hi) / 2
      if x < (a.getD mid 0 : Int) then bisectRightAux a x fuel lo mid
      else bisectRightAux a x fuel (mid + 1) hi
    else lo

/-- `bisect.bisect(a, x, lo, hi)` as called by `random.choices`. -/
def bisectRight (a : List Int) (x : ℚ) (lo hi : Nat) : Nat :=
  bisectRightAux a x (hi - lo) lo hi

/-- The index drawn by `random.choices(population, weights, k=1)` when the
uniform draw is `u`: cumulate the weights, set `total = cum_weights[-1]`,
and bisect the cumulative list at `u * total` within `[0, n-1]`. -/
def pickIndex (weights : List Int) (u : ℚ) : Nat :=
  let cum := cumWeights weights
  let total : Int := cum.getLast?.getD 0
  bisectRight cum (u * (total : ℚ)) 0 (weights.length - 1)

/-- The selection step of `Database.get_random_card` (db.py lines 224-237):
return `None` on an empty population; on a population/weights length
mismatch fall back to `random.choice` (uniform index `choiceIdx` modulo the
population size); otherwise run `random.choices` — which raises
`ValueError` when the weight total is not positive, caught by the `except`
branch that again falls back to `random.choice`. -/
def selectWordInfo (population : List WordInfo) (weights : List Int)
    (u : ℚ) (choiceIdx : Nat) : Option WordInfo :=
  if population.isEmpty then none
  else if population.length ≠ weights.length then
    population.get? (choiceIdx % population.length)
  else
    let total : Int := (cumWeights weights).getLast?.getD 0
    if total ≤ 0 then population.get? (choiceIdx % population.length)
    else population.get? (pickIndex weights u)

/-- `random.sample(pool, k)` modelled as `k` draws without replacement:
at each step the source picks a position (`pick step`, reduced modulo the
remaining pool size), the element there is emitted and removed from the
pool. -/
def randSample (pick : Nat → Nat) : Nat → Nat → List String → List String
  | _, 0, _ => []
  | step, k + 1, pool =>
    if pool.length = 0 then []
    else
      let i := pick step % pool.length
      pool.getD i "" :: randSample pick (step + 1) k (pool.eraseIdx i)

/-- `random.shuffle` modelled as a full sample without replacement
(Fisher-Yates): every output is a permutation of the input. -/
def randShuffle (pick : Nat → Nat) (l : List String) : List String :=
  randSample pick 0 l.length l

/-- Option construction of `Database.get_random_card` (db.py lines
239-245): gather every `en_word` of the candidate rows, drop those equal
to the selected word's `en_word`, sample `min 3 (length)` of the rest,
append the selected `en_word` and shuffle. -/
def makeOptions (rows : List WordRow) (target : String) (r : Rand) :
    List String :=
  let all_available_en_words := rows.map (·.en_word)
  let other_en_words := all_available_en_words.filter (fun w => w ≠ target)
  let num_options := min 3 other_en_words.length
  let options := randSample r.samplePick 0 num_options other_en_words ++ [target]
  randShuffle r.shufflePick options

/-- The `word_info` dictionary built from one candidate row (db.py line
213). -/
def rowInfo (row : WordRow) : WordInfo :=
  { en_word := row.en_word, ru_word := row.ru_word,
    word_type := row.word_type, word_ref_id := row.word_ref_id }

/-- The weight attached to one candidate row (db.py lines 215-222). -/
def rowWeight (row : WordRow) : Int :=
  computeWeight row.correct_count row.incorrect_count

/-- `Database.get_random_card` (db.py lines 176-262) as a function of the
connection state (`connLive` is false when `self.conn is None`), the
outcome of the candidate query (`Except.error` when the cursor raises),
and the random source. All storage failures are caught inside the
function, which then returns `Except.ok none`; the `Except` in the result
type records that the function itself never lets a failure escape. -/
def getRandomCard (connLive : Bool) (fetch : Except DbError (List WordRow))
    (r : Rand) : Except DbError (Option Card) :=
  if connLive = false then Except.ok none
  else
    match fetch with
    | Except.error _ => Except.ok none
    | Except.ok rows =>
      if rows.isEmpty then Except.ok none
      else
        let population := rows.map rowInfo
        let weights := rows.map rowWeight
        match selectWordInfo population weights r.u r.choiceIdx with
        | none => Except.ok none
        | some sel =>
          Except.ok (some
            { en_word := sel.en_word, ru_word := sel.ru_word,
              options := makeOptions rows sel.en_word r,
              word_type := sel.word_type, word_ref_id := sel.word_ref_id })

/-- Python `str.strip()` over the character sequence of a string: drop
whitespace characters from both ends. -/
def pyStrip (s : List Char) : List Char :=
  ((s.dropWhile Char.isWhitespace).reverse.dropWhile Char.isWhitespace).reverse

/-- Python `str.lower()` over the character sequence of a string:
lower-case every character. -/
def pyLower (s : List Char) : List Char :=
  s.map Char.toLower

/-- Answer grading in `handle_non_command_text` (bot.py lines 266, 310):
the submitted message text is stripped of surrounding whitespace on
receipt (`user_text = message.text.strip()`), and the answer is correct
exactly when `user_text.lower() == correct_answer.lower()`, where
`correct_answer` is the active card's `en_word`. Strings are modelled by
their character sequences. -/
def gradeAnswer (correct_answer submitted_text : List Char) : Bool :=
  let user_text := pyStrip submitted_text
  pyLower user_text == pyLower correct_answer

/-- Key of table `user_word_progress`: `(user_id, word_type, word_ref_id)`,
unique by the table's UNIQUE constraint. -/
structure ProgressKey where
  user_id : Int
  word_type : String
  word_ref_id : Int
deriving DecidableEq, Repr

/-- One row of `user_word_progress` (minus its key):
`correct_count`, `incorrect_count`, `last_tested` (nullable). -/
structure ProgressRow where
  correct_count : Nat
  incorrect_count : Nat
  last_tested : Option Nat
deriving DecidableEq, Repr

/-- The `user_word_progress` table as a partial map from its unique key. -/
def ProgressDB : Type := ProgressKey → Option ProgressRow

/-- `Database.record_answer` (db.py lines 313-340): an
`INSERT ... ON CONFLICT (user_id, word_type, word_ref_id) DO UPDATE`.
When no row exists for the key the inserted row is `(1, 0, now)` for a
correct answer and `(0, 1, now)` for an incorrect one; on conflict only
the matching counter is incremented and `last_tested` is set to `now`. -/
def recordAnswer (db : ProgressDB) (k : ProgressKey) (is_correct : Bool)
    (now : Nat) : ProgressDB :=
  fun k' =>
    if k' = k then
      some (match db k with
        | none =>
          if is_correct then ⟨1, 0, some now⟩ else ⟨0, 1, some now⟩
        | some row =>
          if is_correct then
            ⟨row.correct_count + 1, row.incorrect_count, some now⟩
          else
            ⟨row.correct_count, row.incorrect_count + 1, some now⟩)
    else db k'

/-- One row of the `user_words` table. -/
structure UserWord where
  id : Int
  user_id : Int
  en_word : String
  ru_word : String
deriving DecidableEq, Repr

/-- One row of the `common_words` table. -/
structure CommonWord where
  id : Int
  en_word : String
  ru_word : String
deriving DecidableEq, Repr

/-- `Database.add_user_word` (db.py lines 264-283): when the connection is
down the call reports failure and writes nothing; otherwise it runs
`INSERT INTO user_words VALUES (user_id, en_word.lower(), ru_word.lower())
ON CONFLICT (user_id, en_word) DO NOTHING RETURNING id` and reports
whether a row was actually inserted. -/
def addUserWord (connLive : Bool) (user_words : List UserWord)
    (nextId : Int) (user_id : Int) (en_word ru_word : String) :
    Bool × List UserWord :=
  if connLive = false then (false, user_words)
  else if user_words.any (fun w =>
      w.user_id == user_id && w.en_word == en_word.toLower) then
    (false, user_words)
  else
    (true, user_words ++
      [{ id := nextId, user_id := user_id,
         en_word := en_word.toLower, ru_word := ru_word.toLower }])

/-- The candidate query of `Database.get_random_card` (db.py lines
188-200): the union of all common words and the given user's own words,
each tagged with its source (`word_type`), left-joined with that user's
progress. The progress table is a partial function of the unique key, so
the join attaches at most one progress row per word. -/
def candidateRows (commons : List CommonWord) (user_words : List UserWord)
    (user_id : Int) (progress : ProgressKey → Option (Nat × Nat)) :
    List WordRow :=
  (commons.map fun c =>
    { en_word := c.en_word, ru_word := c.ru_word, word_type := "common",
      word_ref_id := c.id,
      correct_count := (progress ⟨user_id, "common", c.id⟩).map Prod.fst,
      incorrect_count := (progress ⟨user_id, "common", c.id⟩).map Prod.snd }) ++
  ((user_words.filter fun w => w.user_id == user_id).map fun w =>
    { en_word := w.en_word, ru_word := w.ru_word, word_type := "user",
      word_ref_id := w.id,
      correct_count := (progress ⟨user_id, "user", w.id⟩).map Prod.fst,
      incorrect_count := (progress ⟨user_id, "user", w.id⟩).map Prod.snd })

/-- A concrete random source: uniform value 0, all position draws 0 or the
step number. -/
def rand0 : Rand := ⟨0, 0, fun n => n, fun n => n⟩

/-- A candidate set in which a user word duplicates the English text of a
common word — reachable because `add_user_word` only rejects duplicates
within the same user's own words. -/
def rows2 : List WordRow :=
  [{ en_word := "apple", ru_word := "яблоко", word_type := "common",
     word_ref_id := 1, correct_count := none, incorrect_count := none },
   { en_word := "apple", ru_word := "красное яблоко", word_type := "user",
     word_ref_id := 1, correct_count := none, incorrect_count := none }]

/-- A one-row candidate set. -/
def rows1 : List WordRow :=
  [{ en_word := "apple", ru_word := "яблоко", word_type := "common",
     word_ref_id := 1, correct_count := none, incorrect_count := none }]

/-- A concrete word-info value. -/
def info0 : WordInfo :=
  { en_word := "apple", ru_word := "яблоко", word_type := "common",
    word_ref_id := 1 }

/-- The identity of a candidate row: its `(word_type, word_ref_id)`
pair. -/
def rowKey (row : WordRow) : String × Int :=
  (row.word_type, row.word_ref_id)

/-- A concrete one-word `common_words` table. -/
def commons0 : List CommonWord :=
  [{ id := 1, en_word := "apple", ru_word := "яблоко" }]

/-- An empty progress table. -/
def prog0 : ProgressKey → Option (Nat × Nat) := fun _ => none

/-- The card produced from `commons0` under `rand0`. -/
def card0 : Card :=
  { en_word := "apple", ru_word := "яблоко", options := ["apple"],
    word_type := "common", word_ref_id := 1 }

/-! ### Helper lemmas about the random-sampling model -/

lemma getD_mem_of_lt {l : List String} {i : Nat} (h : i < l.length) (d : String) :
    l.getD i d ∈ l := by
  rw [List.getD_eq_getElem?_getD, List.getElem?_eq_getElem h]
  exact List.getElem_mem h

lemma perm_getD_cons_eraseIdx :
    ∀ (l : List String) (i : Nat), i < l.length →
      List.Perm (l.getD i "" :: l.eraseIdx i) l
  | a :: tl, 0, _ => by simp
  | a :: tl, i + 1, h => by
    have htl : i < tl.length := by simpa using h
    have ih := perm_getD_cons_eraseIdx tl i htl
    have hswap : List.Perm (tl.getD i "" :: a :: tl.eraseIdx i)
        (a :: tl.getD i "" :: tl.eraseIdx i) :=
      List.Perm.swap a (tl.getD i "") (tl.eraseIdx i)
    have hgoal : List.Perm (tl.getD i "" :: a :: tl.eraseIdx i) (a :: tl) :=
      hswap.trans (ih.cons a)
    simpa using hgoal

lemma randSample_length (pick : Nat → Nat) :
    ∀ (k step : Nat) (pool : List String),
      (randSample pick step k pool).length = min k pool.length := by
  intro k
  induction k with
  | zero => intro step pool; simp [randSample]
  | succ k ih =>
    intro step pool
    by_cases hl : pool.length = 0
    · simp [randSample, hl]
    · have hi : pick step % pool.length < pool.length :=
        Nat.mod_lt _ (Nat.pos_of_ne_zero hl)
      simp only [randSample, hl, if_false, List.length_cons,
        ih (step + 1) (pool.eraseIdx _), List.length_eraseIdx, hi, if_true]
      omega

lemma randSample_subset (pick : Nat → Nat) :
    ∀ (k step : Nat) (pool : List String) (x : String),
      x ∈ randSample pick step k pool → x ∈ pool := by
  intro k
  induction k with
  | zero => intro step pool x hx; simp [randSample] at hx
  | succ k ih =>
    intro step pool x hx
    by_cases hl : pool.length = 0
    · simp [randSample, hl] at hx
    · have hi : pick step % pool.length < pool.length :=
        Nat.mod_lt _ (Nat.pos_of_ne_zero hl)
      simp only [randSample, hl, if_false, List.mem_cons] at hx
      rcases hx with hx | hx
      · exact hx ▸ getD_mem_of_lt hi ""
      · exact (List.eraseIdx_sublist pool _).subset (ih _ _ _ hx)

lemma randSample_perm (pick : Nat → Nat) :
    ∀ (k step : Nat) (pool : List String), pool.length = k →
      List.Perm (randSample pick step k pool) pool := by
  intro k
  induction k with
  | zero =>
    intro step pool hk
    rw [List.length_eq_zero] at hk
    simp [randSample, hk]
  | succ k ih =>
    intro step pool hk
    have hl : pool.length ≠ 0 := by omega
    have hi : pick step % pool.length < pool.length :=
      Nat.mod_lt _ (Nat.pos_of_ne_zero hl)
    have herase : (pool.eraseIdx (pick step % pool.length)).length = k := by
      rw [List.length_eraseIdx, if_pos hi]; omega
    have htail := ih (step + 1) _ herase
    simp only [randSample, hl, if_false]
    exact (htail.cons _).trans (perm_getD_cons_eraseIdx pool _ hi)

lemma randSample_nodup (pick : Nat → Nat) :
    ∀ (k step : Nat) (pool : List String), pool.Nodup →
      (randSample pick step k pool).Nodup := by
  intro k
  induction k with
  | zero => intro step pool _; simp [randSample]
  | succ k ih =>
    intro step pool hnd
    by_cases hl : pool.length = 0
    · simp [randSample, hl]
    · have hi : pick step % pool.length < pool.length :=
        Nat.mod_lt _ (Nat.pos_of_ne_zero hl)
      have hperm := perm_getD_cons_eraseIdx pool _ hi
      have hcons : (pool.getD (pick step % pool.length) "" ::
          pool.eraseIdx (pick step % pool.length)).Nodup := hperm.nodup_iff.mpr hnd
      rw [List.nodup_cons] at hcons
      simp only [randSample, hl, if_false, List.nodup_cons]
      refine ⟨fun hmem => hcons.1 (randSample_subset pick _ _ _ _ hmem),
        ih _ _ hcons.2⟩

lemma randShuffle_perm (pick : Nat → Nat) (l : List String) :
    List.Perm (randShuffle pick l) l :=
  randSample_perm pick _ 0 l rfl

lemma filter_ne_length (l : List String) (a : String) (hnd : l.Nodup)
    (ha : a ∈ l) :
    (l.filter (fun w => w ≠ a)).length = l.length - 1 := by
  have hfe : l.filter (fun w => w ≠ a) = l.erase a := by
    rw [List.Nodup.erase_eq_filter hnd a]
    apply List.filter_congr
    intro x _
    by_cases h : x = a <;> simp [h]
  rw [hfe, List.length_erase_of_mem ha]

lemma makeOptions_spec (rows : List WordRow) (target : String) (r : Rand)
    (hnd : (rows.map (·.en_word)).Nodup)
    (hmem : target ∈ rows.map (·.en_word)) :
    (makeOptions rows target r).length = min 4 rows.length ∧
    (makeOptions rows target r).Nodup ∧
    target ∈ makeOptions rows target r := by
  have hperm := randShuffle_perm r.shufflePick
    (randSample r.samplePick 0
      (min 3 ((rows.map (·.en_word)).filter (fun w => w ≠ target)).length)
      ((rows.map (·.en_word)).filter (fun w => w ≠ target)) ++ [target])
  have hother_nd : ((rows.map (·.en_word)).filter
      (fun w => w ≠ target)).Nodup := hnd.filter _
  have hother_len : ((rows.map (·.en_word)).filter
      (fun w => w ≠ target)).length = rows.length - 1 := by
    rw [filter_ne_length _ _ hnd hmem, List.length_map]
  have hlen_pos : 0 < rows.length := by
    rcases List.exists_mem_of_ne_nil rows (by
      intro h; rw [h] at hmem; simp at hmem) with ⟨x, hx⟩
    exact List.length_pos.mpr (List.ne_nil_of_mem hx)
  have hsample_len := randSample_length r.samplePick
    (min 3 ((rows.map (·.en_word)).filter (fun w => w ≠ target)).length) 0
    ((rows.map (·.en_word)).filter (fun w => w ≠ target))
  have hsample_nd := randSample_nodup r.samplePick
    (min 3 ((rows.map (·.en_word)).filter (fun w => w ≠ target)).length) 0
    ((rows.map (·.en_word)).filter (fun w => w ≠ target)) hother_nd
  have hsample_sub := randSample_subset r.samplePick
    (min 3 ((rows.map (·.en_word)).filter (fun w => w ≠ target)).length) 0
    ((rows.map (·.en_word)).filter (fun w => w ≠ target))
  have htarget_not : target ∉ randSample r.samplePick 0
      (min 3 ((rows.map (·.en_word)).filter (fun w => w ≠ target)).length)
      ((rows.map (·.en_word)).filter (fun w => w ≠ target)) := by
    intro hmem'
    have := List.of_mem_filter (hsample_sub target hmem')
    simp at this
  refine ⟨?_, ?_, ?_⟩
  · rw [makeOptions, hperm.length_eq, List.length_append, hsample_len,
      List.length_singleton, hother_len]
    omega
  · rw [makeOptions]
    refine hperm.nodup_iff.mpr ?_
    rw [List.nodup_append]
    refine ⟨hsample_nd, List.nodup_singleton target, ?_⟩
    intro x hx hx'
    rw [List.mem_singleton] at hx'
    exact htarget_not (hx' ▸ hx)
  · rw [makeOptions]
    exact hperm.mem_iff.mpr (List.mem_append_right _ (List.mem_singleton_self target))

/-- Unfolding of `getRandomCard` on a live connection and a successful,
non-empty fetch. -/
lemma getRandomCard_ok (rows : List WordRow) (r : Rand) (hne : rows ≠ []) :
    getRandomCard true (Except.ok rows) r =
      (match selectWordInfo (rows.map rowInfo) (rows.map rowWeight)
          r.u r.choiceIdx with
        | none => Except.ok none
        | some sel =>
          Except.ok (some
            { en_word := sel.en_word, ru_word := sel.ru_word,
              options := makeOptions rows sel.en_word r,
              word_type := sel.word_type, word_ref_id := sel.word_ref_id })) := by
  unfold getRandomCard
  simp [List.isEmpty_iff, hne]

/-! ### Helper lemmas about cumulative weights and bisection -/

lemma cumWeightsFrom_length (acc : Int) :
    ∀ ws : List Int, (cumWeightsFrom acc ws).length = ws.length := by
  intro ws
  induction ws generalizing acc with
  | nil => simp [cumWeightsFrom]
  | cons w ws ih => simp [cumWeightsFrom, ih]

lemma cumWeightsFrom_getD (acc : Int) :
    ∀ (ws : List Int) (i : Nat), i < ws.length →
      (cumWeightsFrom acc ws).getD i 0 = acc + (ws.take (i + 1)).sum := by
  intro ws
  induction ws generalizing acc with
  | nil => intro i hi; simp at hi
  | cons w ws ih =>
    intro i hi
    cases i with
    | zero => simp [cumWeightsFrom]
    | succ i =>
      have hi' : i < ws.length := by simpa using hi
      simp only [cumWeightsFrom, List.getD_cons_succ, ih (acc + w) i hi',
        List.take_succ_cons, List.sum_cons]
      ring

lemma cumWeightsFrom_getLast (acc : Int) :
    ∀ ws : List Int, ws ≠ [] →
      (cumWeightsFrom acc ws).getLast?.getD 0 = acc + ws.sum := by
  intro ws
  induction ws generalizing acc with
  | nil => intro h; simp at h
  | cons w ws ih =>
    intro _
    cases ws with
    | nil => simp [cumWeightsFrom]
    | cons w' ws' =>
      have := ih (acc + w) (by simp)
      simp only [cumWeightsFrom] at this ⊢
      rw [List.getLast?_cons_cons, this]
      simp only [List.sum_cons]
      ring

lemma cumWeights_getD (weights : List Int) (i : Nat) (hi : i < weights.length) :
    (cumWeights weights).getD i 0 = (weights.take (i + 1)).sum := by
  simpa using cumWeightsFrom_getD 0 weights i hi

lemma cumWeights_total (weights : List Int) (hne : weights ≠ []) :
    (cumWeights weights).getLast?.getD 0 = weights.sum := by
  simpa using cumWeightsFrom_getLast 0 weights hne

lemma cumWeights_length (weights : List Int) :
    (cumWeights weights).length = weights.length :=
  cumWeightsFrom_length 0 weights

lemma sum_take_mono (weights : List Int) (hw : ∀ w ∈ weights, 0 ≤ w) :
    ∀ i j : Nat, i ≤ j → (weights.take i).sum ≤ (weights.take j).sum := by
  intro i j hij
  induction j with
  | zero =>
    have h0 : i = 0 := by omega
    subst h0
    exact le_refl _
  | succ j ih =>
    rcases Nat.eq_or_lt_of_le hij with h | h
    · subst h; exact le_refl _
    · refine le_trans (ih (by omega)) ?_
      rcases Nat.lt_or_ge j weights.length with hj | hj
      · rw [List.sum_take_succ weights j hj]
        have : 0 ≤ weights[j] := hw _ (List.getElem_mem hj)
        omega
      · rw [List.take_of_length_le hj, List.take_of_length_le (by omega)]

lemma sum_pos_of_one_le (weights : List Int) (hw : ∀ w ∈ weights, 1 ≤ w)
    (hne : weights ≠ []) : 0 < weights.sum := by
  induction weights with
  | nil => simp at hne
  | cons w ws ih =>
    simp only [List.sum_cons]
    have hw1 : 1 ≤ w := hw w (by simp)
    cases ws with
    | nil => simpa using hw1
    | cons w' ws' =>
      have := ih (fun x hx => hw x (by simp [hx])) (by simp)
      omega

lemma bisectRightAux_ge (a : List Int) (x : ℚ) :
    ∀ (fuel lo hi : Nat), lo ≤ bisectRightAux a x fuel lo hi := by
  intro fuel
  induction fuel with
  | zero => intro lo hi; simp [bisectRightAux]
  | succ fuel ih =>
    intro lo hi
    simp only [bisectRightAux]
    split
    · split
      · exact ih lo ((lo + hi) / 2)
      · have := ih ((lo + hi) / 2 + 1) hi
        omega
    · exact Nat.le_refl lo

lemma bisectRightAux_le (a : List Int) (x : ℚ) :
    ∀ (fuel lo hi : Nat), lo ≤ hi → bisectRightAux a x fuel lo hi ≤ hi := by
  intro fuel
  induction fuel with
  | zero => intro lo hi h; simpa [bisectRightAux] using h
  | succ fuel ih =>
    intro lo hi h
    simp only [bisectRightAux]
    split
    · rename_i hlt
      split
      · have := ih lo ((lo + hi) / 2) (by omega)
        omega
      · exact ih ((lo + hi) / 2 + 1) hi (by omega)
    · exact h

lemma bisectRightAux_spec (a : List Int) (x : ℚ)
    (hmono : ∀ i j : Nat, i ≤ j → j < a.length →
      ((a.getD i 0 : Int) : ℚ) ≤ ((a.getD j 0 : Int) : ℚ)) :
    ∀ (fuel lo hi : Nat), hi - lo ≤ fuel → lo ≤ hi → hi ≤ a.length →
      (∀ j, lo ≤ j → j < bisectRightAux a x fuel lo hi →
        ((a.getD j 0 : Int) : ℚ) ≤ x) ∧
      (∀ j, bisectRightAux a x fuel lo hi ≤ j → j < hi →
        x < ((a.getD j 0 : Int) : ℚ)) := by
  intro fuel
  induction fuel with
  | zero =>
    intro lo hi hfuel hlh _
    have : lo = hi := by omega
    subst this
    constructor
    · intro j h1 h2
      simp [bisectRightAux] at h2
      omega
    · intro j h1 h2
      simp [bisectRightAux] at h1
      omega
  | succ fuel ih =>
    intro lo hi hfuel hlh hha
    by_cases hlt : lo < hi
    · have hmidlo : lo ≤ (lo + hi) / 2 := by omega
      have hmidhi : (lo + hi) / 2 < hi := by omega
      by_cases hx : x < ((a.getD ((lo + hi) / 2) 0 : Int) : ℚ)
      · have heq : bisectRightAux a x (fuel + 1) lo hi =
            bisectRightAux a x fuel lo ((lo + hi) / 2) := by
          simp only [bisectRightAux, if_pos hlt, if_pos hx]
        have hrec := ih lo ((lo + hi) / 2) (by omega) hmidlo (by omega)
        have hub := bisectRightAux_le a x fuel lo ((lo + hi) / 2) hmidlo
        rw [heq]
        refine ⟨hrec.1, fun j h1 h2 => ?_⟩
        rcases Nat.lt_or_ge j ((lo + hi) / 2) with hj | hj
        · exact hrec.2 j h1 hj
        · exact lt_of_lt_of_le hx (hmono _ j hj (by omega))
      · have heq : bisectRightAux a x (fuel + 1) lo hi =
            bisectRightAux a x fuel ((lo + hi) / 2 + 1) hi := by
          simp only [bisectRightAux, if_pos hlt, if_neg hx]
        have hrec := ih ((lo + hi) / 2 + 1) hi (by omega) (by omega) hha
        have hlb := bisectRightAux_ge a x fuel ((lo + hi) / 2 + 1) hi
        rw [heq]
        refine ⟨fun j h1 h2 => ?_, hrec.2⟩
        rcases Nat.lt_or_ge j ((lo + hi) / 2 + 1) with hj | hj
        · exact le_trans (hmono j ((lo + hi) / 2) (by omega) (by omega))
            (le_of_not_lt hx)
        · exact hrec.1 j hj h2
    · have heq : bisectRightAux a x (fuel + 1) lo hi = lo := by
        simp only [bisectRightAux, if_neg hlt]
      rw [heq]
      exact ⟨fun j h1 h2 => by omega, fun j h1 h2 => by omega⟩


lemma cumWeights_mono (weights : List Int) (hw : ∀ w ∈ weights, 1 ≤ w) :
    ∀ i j : Nat, i ≤ j → j < (cumWeights weights).length →
      (((cumWeights weights).getD i 0 : Int) : ℚ) ≤
        (((cumWeights weights).getD j 0 : Int) : ℚ) := by
  intro i j hij hj
  rw [cumWeights_length] at hj
  rw [cumWeights_getD _ i (by omega), cumWeights_getD _ j hj]
  have hw0 : ∀ w ∈ weights, 0 ≤ w := fun w hmem =>
    le_trans (by norm_num) (hw w hmem)
  exact_mod_cast sum_take_mono weights hw0 (i + 1) (j + 1) (by omega)

lemma pickIndex_bounds (weights : List Int) (u : ℚ)
    (hw : ∀ w ∈ weights, 1 ≤ w) (hne : weights ≠ [])
    (hu0 : 0 ≤ u) (hu1 : u < 1) :
    pickIndex weights u < weights.length ∧
    ((weights.take (pickIndex weights u)).sum : ℚ) ≤ u * (weights.sum : ℚ) ∧
    u * (weights.sum : ℚ) <
      ((weights.take (pickIndex weights u + 1)).sum : ℚ) := by
  have hn : 0 < weights.length := List.length_pos.mpr hne
  have hT : 0 < weights.sum := sum_pos_of_one_le weights hw hne
  have hTQ : (0 : ℚ) < (weights.sum : ℚ) := by exact_mod_cast hT
  have hpick : pickIndex weights u =
      bisectRightAux (cumWeights weights) (u * (weights.sum : ℚ))
        (weights.length - 1) 0 (weights.length - 1) := by
    simp only [pickIndex, bisectRight, cumWeights_total weights hne,
      Nat.sub_zero]
  have hspec := bisectRightAux_spec (cumWeights weights)
    (u * (weights.sum : ℚ)) (cumWeights_mono weights hw)
    (weights.length - 1) 0 (weights.length - 1) (by omega) (by omega)
    (by rw [cumWeights_length]; omega)
  have hub := bisectRightAux_le (cumWeights weights)
    (u * (weights.sum : ℚ)) (weights.length - 1) 0 (weights.length - 1)
    (by omega)
  rw [hpick]
  set k := bisectRightAux (cumWeights weights) (u * (weights.sum : ℚ))
    (weights.length - 1) 0 (weights.length - 1) with hk
  have hklt : k < weights.length := by omega
  refine ⟨hklt, ?_, ?_⟩
  · cases hkc : k with
    | zero =>
      simp only [List.take_zero, List.sum_nil, Int.cast_zero]
      exact mul_nonneg hu0 (le_of_lt hTQ)
    | succ m =>
      have hm : m < k := by omega
      have := hspec.1 m (by omega) hm
      rwa [cumWeights_getD _ m (by omega)] at this
  · rcases Nat.lt_or_ge k (weights.length - 1) with hkend | hkend
    · have := hspec.2 k (le_refl k) hkend
      rwa [cumWeights_getD _ k hklt] at this
    · have hkeq : k = weights.length - 1 := by omega
      have htake : weights.take (k + 1) = weights := by
        apply List.take_of_length_le; omega
      rw [htake]
      exact mul_lt_of_lt_one_left hTQ hu1

lemma pickIndex_lt (weights : List Int) (u : ℚ) (h : 0 < weights.length) :
    pickIndex weights u < weights.length := by
  have hle := bisectRightAux_le (cumWeights weights)
    (u * (((cumWeights weights).getLast?.getD 0 : Int) : ℚ))
    (weights.length - 1) 0 (weights.length - 1) (Nat.zero_le _)
  have hpk : pickIndex weights u ≤ weights.length - 1 := by
    simpa only [pickIndex, bisectRight, Nat.sub_zero] using hle
  omega

lemma selectWordInfo_mem (population : List WordInfo) (weights : List Int)
    (u : ℚ) (choiceIdx : Nat) (hne : population ≠ []) :
    ∃ wi, selectWordInfo population weights u choiceIdx = some wi ∧
      wi ∈ population := by
  have hn : 0 < population.length := List.length_pos.mpr hne
  have hmod : choiceIdx % population.length < population.length :=
    Nat.mod_lt _ hn
  unfold selectWordInfo
  rw [if_neg (by simp [List.isEmpty_iff, hne])]
  by_cases hmm : population.length ≠ weights.length
  · rw [if_pos hmm, List.get?_eq_get hmod]
    exact ⟨_, rfl, List.get_mem _ _ hmod⟩
  · rw [if_neg hmm]
    push_neg at hmm
    by_cases htot : ((cumWeights weights).getLast?.getD 0 : Int) ≤ 0
    · rw [if_pos htot, List.get?_eq_get hmod]
      exact ⟨_, rfl, List.get_mem _ _ hmod⟩
    · rw [if_neg htot]
      have hpk : pickIndex weights u < population.length := by
        rw [hmm]; exact pickIndex_lt weights u (by omega)
      rw [List.get?_eq_get hpk]
      exact ⟨_, rfl, List.get_mem _ _ hpk⟩

lemma take_interval_unique (weights : List Int) (hw : ∀ w ∈ weights, 1 ≤ w)
    (x : ℚ) (i k : Nat)
    (h1 : ((weights.take i).sum : ℚ) ≤ x)
    (h2 : x < ((weights.take (i + 1)).sum : ℚ))
    (h3 : ((weights.take k).sum : ℚ) ≤ x)
    (h4 : x < ((weights.take (k + 1)).sum : ℚ)) :
    i = k := by
  by_contra hik
  have hw0 : ∀ w ∈ weights, 0 ≤ w := fun w hmem =>
    le_trans (by norm_num) (hw w hmem)
  rcases Nat.lt_or_ge i k with h | h
  · have hmono : (weights.take (i + 1)).sum ≤ (weights.take k).sum :=
      sum_take_mono weights hw0 (i + 1) k (by omega)
    have hmonoQ : ((weights.take (i + 1)).sum : ℚ) ≤
        ((weights.take k).sum : ℚ) := by exact_mod_cast hmono
    linarith
  · have hki : k < i := by omega
    have hmono : (weights.take (k + 1)).sum ≤ (weights.take i).sum :=
      sum_take_mono weights hw0 (k + 1) i (by omega)
    have hmonoQ : ((weights.take (k + 1)).sum : ℚ) ≤
        ((weights.take i).sum : ℚ) := by exact_mod_cast hmono
    linarith

lemma countP_key_eq_one (rows : List WordRow) (key : String × Int)
    (hnd : (rows.map rowKey).Nodup) (hmem : key ∈ rows.map rowKey) :
    rows.countP (fun row => decide (rowKey row = key)) = 1 := by
  induction rows with
  | nil => simp at hmem
  | cons b l ih =>
    rw [List.map_cons, List.nodup_cons] at hnd
    rw [List.map_cons, List.mem_cons] at hmem
    rw [List.countP_cons]
    rcases hmem with h | h
    · have hb : decide (rowKey b = key) = true := by simp [h]
      have hz : l.countP (fun row => decide (rowKey row = key)) = 0 := by
        rw [List.countP_eq_zero]
        intro row hrow
        simp only [decide_eq_true_eq]
        intro hkeyeq
        refine hnd.1 ?_
        rw [← h, ← hkeyeq]
        exact List.mem_map_of_mem rowKey hrow
      rw [hb, hz]
      simp
    · have hb : decide (rowKey b = key) = false := by
        simp only [decide_eq_false_iff_not]
        intro hbk
        exact hnd.1 (hbk ▸ h)
      rw [hb, ih hnd.2 h]
      simp

lemma candidateRows_keys_nodup (commons : List CommonWord)
    (user_words : List UserWord) (user_id : Int)
    (progress : ProgressKey → Option (Nat × Nat))
    (hc : (commons.map (·.id)).Nodup) (hu : (user_words.map (·.id)).Nodup) :
    ((candidateRows commons user_words user_id progress).map rowKey).Nodup := by
  unfold candidateRows
  rw [List.map_append, List.nodup_append]
  refine ⟨?_, ?_, ?_⟩
  · have h1 : ((commons.map fun c =>
        ({ en_word := c.en_word, ru_word := c.ru_word, word_type := "common",
           word_ref_id := c.id,
           correct_count := (progress ⟨user_id, "common", c.id⟩).map Prod.fst,
           incorrect_count := (progress ⟨user_id, "common", c.id⟩).map Prod.snd } :
          WordRow)).map rowKey) =
        (commons.map (·.id)).map (fun i => (("common" : String), i)) := by
      simp only [List.map_map]
      rfl
    rw [h1]
    exact List.Nodup.map (fun a b h => by simpa using h) hc
  · have h2 : (((user_words.filter fun w => w.user_id == user_id).map fun w =>
        ({ en_word := w.en_word, ru_word := w.ru_word, word_type := "user",
           word_ref_id := w.id,
           correct_count := (progress ⟨user_id, "user", w.id⟩).map Prod.fst,
           incorrect_count := (progress ⟨user_id, "user", w.id⟩).map Prod.snd } :
          WordRow)).map rowKey) =
        (((user_words.filter fun w => w.user_id == user_id).map (·.id)).map
          (fun i => (("user" : String), i))) := by
      simp only [List.map_map]
      rfl
    rw [h2]
    have hfu : (((user_words.filter fun w => w.user_id == user_id).map
        (·.id))).Nodup :=
      List.Nodup.sublist
        (List.Sublist.map _ (List.filter_sublist user_words)) hu
    exact List.Nodup.map (fun a b h => by simpa using h) hfu
  · intro x hx hx'
    rw [List.map_map, List.mem_map] at hx
    rw [List.map_map, List.mem_map] at hx'
    rcases hx with ⟨c, _, hcx⟩
    rcases hx' with ⟨w, _, hwx⟩
    have : (("common" : String), c.id) = (("user" : String), w.id) := by
      rw [← hwx] at hcx
      exact hcx
    simp at this

lemma pickIndex_ten_ten : pickIndex [(10 : Int), 10] 0 = 0 := by
  obtain ⟨hlt, hlow, hhigh⟩ := pickIndex_bounds [(10 : Int), 10] 0
    (by decide) (by decide) (by norm_num) (by norm_num)
  by_contra h
  have hk : pickIndex [(10 : Int), 10] 0 = 1 := by
    simp only [List.length_cons, List.length_nil] at hlt
    omega
  rw [hk] at hlow
  norm_num at hlow

lemma selectWordInfo_pop2 :
    selectWordInfo (rows2.map rowInfo) (rows2.map rowWeight) 0 0 =
      some info0 := by
  have hpk : pickIndex (rows2.map rowWeight) 0 = 0 := by
    have hw : rows2.map rowWeight = [(10 : Int), 10] := by decide
    rw [hw]; exact pickIndex_ten_ten
  simp only [selectWordInfo]
  rw [if_neg (by decide), if_neg (by decide), if_neg (by decide), hpk]
  decide

end FlashcardBot

namespace FlashcardBot

/-- C1: the computed selection weight is 10 for a never-attempted word
(including a missing progress row), `max(1, 5 + 2·incorrect − correct)`
when `incorrect > 0`, and `max(1, 5 − correct)` when `correct > 0` and
`incorrect = 0`. -/
theorem computeWeight_formula (correct_c incorrect_c : Option Nat) :
    computeWeight correct_c incorrect_c =
      (let c : Int := (correct_c.getD 0 : Nat)
       let i : Int := (incorrect_c.getD 0 : Nat)
       if c = 0 ∧ i = 0 then 10
       else if i > 0 then max 1 (5 + 2 * i - c)
       else max 1 (5 - c)) := by
  unfold computeWeight
  rcases correct_c with _ | c <;> rcases incorrect_c with _ | i <;>
    simp only [Option.getD] <;> split_ifs <;> omega

/-- C3: modelling the single weighted `random.choices` draw as a function
of the uniform value `u` produced by `random.random()`, the set of uniform
values in `[0,1)` for which candidate `i` is selected is exactly the
cumulative-weight interval `[C_{i-1}/total, C_i/total)`, and the length of
that interval is `weight_i / Σ weight_j` — i.e. the draw is a numerically
correct cumulative-weight draw whose selection probability for candidate
`i` is its weight divided by the total weight. -/
theorem pickIndex_cumulative_draw (weights : List Int) (i : Nat)
    (hw : ∀ w ∈ weights, 1 ≤ w) (hi : i < weights.length) :
    ({u : ℚ | u ∈ Set.Ico (0 : ℚ) 1 ∧ pickIndex weights u = i} =
      Set.Ico (((weights.take i).sum : ℚ) / (weights.sum : ℚ))
        (((weights.take (i + 1)).sum : ℚ) / (weights.sum : ℚ))) ∧
    ((weights.take (i + 1)).sum : ℚ) / (weights.sum : ℚ) -
        ((weights.take i).sum : ℚ) / (weights.sum : ℚ) =
      ((weights.getD i 0 : Int) : ℚ) / (weights.sum : ℚ) := by
  have hne : weights ≠ [] := by
    intro h; rw [h] at hi; simp at hi
  have hT : 0 < weights.sum := sum_pos_of_one_le weights hw hne
  have hTQ : (0 : ℚ) < (weights.sum : ℚ) := by exact_mod_cast hT
  have hw0 : ∀ w ∈ weights, 0 ≤ w := fun w hmem =>
    le_trans (by norm_num) (hw w hmem)
  constructor
  · ext u
    simp only [Set.mem_setOf_eq, Set.mem_Ico]
    constructor
    · rintro ⟨⟨hu0, hu1⟩, hpk⟩
      obtain ⟨_, hlow, hhigh⟩ := pickIndex_bounds weights u hw hne hu0 hu1
      rw [hpk] at hlow hhigh
      exact ⟨(div_le_iff₀ hTQ).mpr hlow, (lt_div_iff₀ hTQ).mpr hhigh⟩
    · rintro ⟨h1, h2⟩
      have h1x : ((weights.take i).sum : ℚ) ≤ u * (weights.sum : ℚ) :=
        (div_le_iff₀ hTQ).mp h1
      have h2x : u * (weights.sum : ℚ) < ((weights.take (i + 1)).sum : ℚ) :=
        (lt_div_iff₀ hTQ).mp h2
      have htake0 : (0 : Int) ≤ (weights.take i).sum := by
        have := sum_take_mono weights hw0 0 i (by omega)
        simpa using this
      have hu0 : 0 ≤ u := by
        refine le_trans (div_nonneg ?_ (le_of_lt hTQ)) h1
        exact_mod_cast htake0
      have htakeT : (weights.take (i + 1)).sum ≤ weights.sum := by
        have := sum_take_mono weights hw0 (i + 1) weights.length (by omega)
        rwa [List.take_length] at this
      have hu1 : u < 1 := by
        refine lt_of_lt_of_le h2 ((div_le_one₀ hTQ).mpr ?_)
        exact_mod_cast htakeT
      obtain ⟨hklt, hlow, hhigh⟩ := pickIndex_bounds weights u hw hne hu0 hu1
      exact ⟨⟨hu0, hu1⟩,
        take_interval_unique weights hw (u * (weights.sum : ℚ))
          (pickIndex weights u) i hlow hhigh h1x h2x⟩
  · have hsucc : (weights.take (i + 1)).sum = (weights.take i).sum +
        weights[i] := List.sum_take_succ weights i hi
    have hgetD : weights.getD i 0 = weights[i] := by
      rw [List.getD_eq_getElem?_getD, List.getElem?_eq_getElem hi]
      rfl
    rw [div_sub_div_same, hgetD]
    congr 1
    push_cast [hsucc]
    ring

/-- Witness for `pickIndex_cumulative_draw`: both hypotheses hold at the
weight list `[10, 2]` (the spec's apple/cat scenario) and index 0. -/
theorem pickIndex_cumulative_draw_witness :
    (∀ w ∈ [(10 : Int), 2], 1 ≤ w) ∧ (0 < [(10 : Int), 2].length) ∧
    (({u : ℚ | u ∈ Set.Ico (0 : ℚ) 1 ∧ pickIndex [(10 : Int), 2] u = 0} =
      Set.Ico ((([(10 : Int), 2].take 0).sum : ℚ) / (([(10 : Int), 2].sum : Int) : ℚ))
        ((([(10 : Int), 2].take (0 + 1)).sum : ℚ) / (([(10 : Int), 2].sum : Int) : ℚ))) ∧
    (([(10 : Int), 2].take (0 + 1)).sum : ℚ) / (([(10 : Int), 2].sum : Int) : ℚ) -
        (([(10 : Int), 2].take 0).sum : ℚ) / (([(10 : Int), 2].sum : Int) : ℚ) =
      (([(10 : Int), 2].getD 0 0 : Int) : ℚ) / (([(10 : Int), 2].sum : Int) : ℚ)) :=
  ⟨by decide, by decide,
    pickIndex_cumulative_draw [(10 : Int), 2] 0 (by decide) (by decide)⟩

/-- C5 (amended): when the store is unavailable (no live connection) or
the candidate query raises, `get_random_card` handles the failure
internally and returns `None` to its caller instead of propagating the
failure. -/
theorem getRandomCard_failure_handled (connLive : Bool)
    (fetch : Except DbError (List WordRow)) (r : Rand)
    (h : connLive = false ∨ ∃ e, fetch = Except.error e) :
    getRandomCard connLive fetch r = Except.ok none := by
  rcases h with h | ⟨e, h⟩
  · simp [getRandomCard, h]
  · subst h
    cases connLive <;> simp [getRandomCard]

/-- Witness for `getRandomCard_failure_handled` at a dead connection. -/
theorem getRandomCard_failure_handled_witness :
    ((false = false) ∨ ∃ e, (Except.ok [] : Except DbError (List WordRow)) =
      Except.error e) ∧
    getRandomCard false (Except.ok []) rand0 = Except.ok none :=
  ⟨Or.inl rfl,
    getRandomCard_failure_handled false (Except.ok []) rand0 (Or.inl rfl)⟩

/-- C5 counterexample: a raising candidate query does NOT propagate out of
`get_random_card` — the call returns `ok none` (the value `None`), not a
failure, for both failure kinds. -/
theorem getRandomCard_error_not_propagated :
    getRandomCard true (Except.error DbError.queryFailure) rand0 =
      Except.ok none ∧
    getRandomCard true (Except.error DbError.storeUnavailable) rand0 =
      Except.ok none := by
  exact ⟨rfl, rfl⟩

/-- C6: for every non-empty population the sampling step of
`get_random_card` returns a word of the population (it never raises), and
when the population and weight lists have mismatched lengths it falls
back to a uniform `random.choice` over the population. -/
theorem selectWordInfo_total (population : List WordInfo)
    (weights : List Int) (u : ℚ) (choiceIdx : Nat)
    (hne : population ≠ []) :
    (∃ wi, selectWordInfo population weights u choiceIdx = some wi ∧
      wi ∈ population) ∧
    (population.length ≠ weights.length →
      selectWordInfo population weights u choiceIdx =
        population.get? (choiceIdx % population.length)) := by
  refine ⟨selectWordInfo_mem population weights u choiceIdx hne, fun hmm => ?_⟩
  unfold selectWordInfo
  rw [if_neg (by simp [List.isEmpty_iff, hne]), if_pos hmm]

/-- Witness for `selectWordInfo_total`: a population of one word with an
empty (mismatched) weight list still yields a card via the uniform
fallback. -/
theorem selectWordInfo_total_witness :
    (([info0] : List WordInfo) ≠ []) ∧
    ((∃ wi, selectWordInfo [info0] [] 0 0 = some wi ∧ wi ∈ [info0]) ∧
      (([info0] : List WordInfo).length ≠ ([] : List Int).length →
        selectWordInfo [info0] [] 0 0 =
          ([info0] : List WordInfo).get? (0 % 1))) :=
  ⟨by decide, selectWordInfo_total [info0] [] 0 0 (by decide)⟩

/-- C2 (amended): for every non-empty candidate set whose `en_text`s are
pairwise distinct, `get_random_card` returns a card whose options list has
length `min 4 n` for a candidate set of size `n` (so 1, 2, 3 options for
sizes 1, 2, 3 and exactly 4 from size 4 on), whose options are pairwise
distinct, and whose options contain the selected word's `en_text`. -/
theorem getRandomCard_options_spec (rows : List WordRow) (r : Rand)
    (hne : rows ≠ []) (hnd : (rows.map (·.en_word)).Nodup) :
    ∃ card, getRandomCard true (Except.ok rows) r = Except.ok (some card) ∧
      card.options.length = min 4 rows.length ∧
      card.options.Nodup ∧ card.en_word ∈ card.options := by
  have hpop : rows.map rowInfo ≠ [] := by
    simpa [List.map_eq_nil_iff] using hne
  obtain ⟨wi, hsel, hmemw⟩ := selectWordInfo_mem (rows.map rowInfo)
    (rows.map rowWeight) r.u r.choiceIdx hpop
  have hmem_en : wi.en_word ∈ rows.map (·.en_word) := by
    rcases List.mem_map.mp hmemw with ⟨row, hrow, hEq⟩
    exact List.mem_map.mpr ⟨row, hrow, by rw [← hEq]; rfl⟩
  obtain ⟨hlen, hnodup, hmem_opt⟩ := makeOptions_spec rows wi.en_word r hnd hmem_en
  refine ⟨{ en_word := wi.en_word, ru_word := wi.ru_word,
            options := makeOptions rows wi.en_word r,
            word_type := wi.word_type, word_ref_id := wi.word_ref_id },
    ?_, hlen, hnodup, hmem_opt⟩
  rw [getRandomCard_ok rows r hne, hsel]

/-- Witness for `getRandomCard_options_spec` at a one-word candidate
set. -/
theorem getRandomCard_options_spec_witness :
    (rows1 ≠ []) ∧ ((rows1.map (·.en_word)).Nodup) ∧
    (∃ card, getRandomCard true (Except.ok rows1) rand0 =
        Except.ok (some card) ∧
      card.options.length = min 4 rows1.length ∧
      card.options.Nodup ∧ card.en_word ∈ card.options) :=
  ⟨by decide, by decide,
    getRandomCard_options_spec rows1 rand0 (by decide) (by decide)⟩

/-- C2 counterexample: the candidate set `rows2` has two rows (its user
word duplicates the English text of a common word, which
`add_user_word` does not prevent), yet the returned card carries a single
option, not two — the options list length does not match the vocabulary
size. -/
theorem getRandomCard_duplicate_en_word :
    getRandomCard true (Except.ok rows2) rand0 =
      Except.ok (some { en_word := "apple", ru_word := "яблоко",
                        options := ["apple"], word_type := "common",
                        word_ref_id := 1 }) ∧
    rows2.length = 2 := by
  refine ⟨?_, rfl⟩
  rw [getRandomCard_ok rows2 rand0 (by decide)]
  have hu : rand0.u = (0 : ℚ) := rfl
  have hc : rand0.choiceIdx = 0 := rfl
  rw [hu, hc, selectWordInfo_pop2]
  show (Except.ok (some
      ({ en_word := info0.en_word, ru_word := info0.ru_word,
         options := makeOptions rows2 info0.en_word rand0,
         word_type := info0.word_type,
         word_ref_id := info0.word_ref_id } : Card)) :
    Except DbError (Option Card)) = _
  have hopts : makeOptions rows2 info0.en_word rand0 = ["apple"] := by decide
  rw [hopts]
  rfl

/-- C7: an empty candidate set makes `get_random_card` return `None`,
with no exception, whatever the connection state and random source. -/
theorem getRandomCard_empty_vocabulary (connLive : Bool) (r : Rand) :
    getRandomCard connLive (Except.ok []) r = Except.ok none := by
  cases connLive <;> simp [getRandomCard]

/-- C4: the candidate set assembled from the two word sources contains at
most one row per `(word_type, word_ref_id)` identity (given the per-table
uniqueness of ids), and the card returned by `get_random_card` matches
exactly one candidate by that identity. -/
theorem getRandomCard_unique_identity (commons : List CommonWord)
    (user_words : List UserWord) (user_id : Int)
    (progress : ProgressKey → Option (Nat × Nat)) (r : Rand) (card : Card)
    (hc : (commons.map (·.id)).Nodup) (hu : (user_words.map (·.id)).Nodup)
    (hcard : getRandomCard true
        (Except.ok (candidateRows commons user_words user_id progress)) r =
      Except.ok (some card)) :
    ((candidateRows commons user_words user_id progress).map rowKey).Nodup ∧
    (candidateRows commons user_words user_id progress).countP
      (fun row => decide (rowKey row = (card.word_type, card.word_ref_id))) =
      1 := by
  have hnd := candidateRows_keys_nodup commons user_words user_id progress hc hu
  refine ⟨hnd, ?_⟩
  set rows := candidateRows commons user_words user_id progress with hrows
  by_cases hne : rows = []
  · rw [hne] at hcard
    unfold getRandomCard at hcard
    simp at hcard
  · have hpop : rows.map rowInfo ≠ [] := by
      simpa [List.map_eq_nil_iff] using hne
    obtain ⟨wi, hsel, hmemw⟩ := selectWordInfo_mem (rows.map rowInfo)
      (rows.map rowWeight) r.u r.choiceIdx hpop
    rw [getRandomCard_ok rows r hne, hsel] at hcard
    have hcardeq : card =
        { en_word := wi.en_word, ru_word := wi.ru_word,
          options := makeOptions rows wi.en_word r,
          word_type := wi.word_type, word_ref_id := wi.word_ref_id } := by
      simpa [eq_comm] using hcard
    obtain ⟨row, hrow, hrowEq⟩ := List.mem_map.mp hmemw
    have hkey : rowKey row = (card.word_type, card.word_ref_id) := by
      rw [hcardeq, ← hrowEq]
      rfl
    rw [← hkey]
    exact countP_key_eq_one rows (rowKey row) hnd
      (List.mem_map_of_mem rowKey hrow)

/-- Witness for `getRandomCard_unique_identity` at a one-word common
table and an empty user table. -/
theorem getRandomCard_unique_identity_witness :
    ((commons0.map (·.id)).Nodup) ∧
    ((([] : List UserWord).map (·.id)).Nodup) ∧
    (getRandomCard true (Except.ok (candidateRows commons0 [] 7 prog0))
        rand0 = Except.ok (some card0)) ∧
    (((candidateRows commons0 [] 7 prog0).map rowKey).Nodup ∧
      (candidateRows commons0 [] 7 prog0).countP
        (fun row => decide (rowKey row =
          (card0.word_type, card0.word_ref_id))) = 1) :=
  ⟨by decide, by decide, by rfl,
    getRandomCard_unique_identity commons0 [] 7 prog0 rand0 card0
      (by decide) (by decide) (by rfl)⟩

/-- C8: grading succeeds if and only if the submission, trimmed of
surrounding whitespace, matches the card's `en_text` case-insensitively
(exact match, no fuzzy matching); in particular the submissions
`"  Apple "` and `"apple"` grade identically against `en_text` `"apple"`. -/
theorem gradeAnswer_spec (en_text submitted : List Char) :
    (gradeAnswer en_text submitted = true ↔
      pyLower (pyStrip submitted) = pyLower en_text) ∧
    (en_text = "apple".data →
      gradeAnswer en_text "  Apple ".data =
        gradeAnswer en_text "apple".data) := by
  constructor
  · simp [gradeAnswer]
  · rintro rfl
    decide

/-- Witness for `gradeAnswer_spec` at `en_text = "apple"`. -/
theorem gradeAnswer_spec_witness :
    (gradeAnswer "apple".data "  Apple ".data = true ↔
      pyLower (pyStrip "  Apple ".data) = pyLower "apple".data) ∧
    gradeAnswer "apple".data "  Apple ".data =
      gradeAnswer "apple".data "apple".data :=
  ⟨(gradeAnswer_spec "apple".data "  Apple ".data).1,
   (gradeAnswer_spec "apple".data "  Apple ".data).2 rfl⟩

/-- C9: `record_answer` upserts the progress row of a key — the row is
created with the opposite counter at zero when absent, only the counter
matching `is_correct` is incremented (by exactly 1), the opposite counter
and every other key are untouched, and `last_tested` is set to the call's
time; consequently two successive correct answers add exactly 2 to
`correct_count`, leave `incorrect_count` unchanged, and leave
`last_tested` at the later call's time. -/
theorem recordAnswer_spec (db : ProgressDB) (k : ProgressKey) (c : Bool)
    (t t1 t2 : Nat) :
    (recordAnswer db k c t = fun k' =>
      if k' = k then
        some { correct_count :=
                 ((db k).getD ⟨0, 0, none⟩).correct_count +
                   (if c then 1 else 0),
               incorrect_count :=
                 ((db k).getD ⟨0, 0, none⟩).incorrect_count +
                   (if c then 0 else 1),
               last_tested := some t }
      else db k') ∧
    recordAnswer (recordAnswer db k true t1) k true t2 k =
      some { correct_count := ((db k).getD ⟨0, 0, none⟩).correct_count + 2,
             incorrect_count := ((db k).getD ⟨0, 0, none⟩).incorrect_count,
             last_tested := some t2 } := by
  constructor
  · funext k'
    unfold recordAnswer
    by_cases hk : k' = k
    · rw [if_pos hk, if_pos hk]
      cases hdb : db k <;> cases c <;> simp [hdb, Option.getD]
    · rw [if_neg hk, if_neg hk]
  · unfold recordAnswer
    rw [if_pos rfl, if_pos rfl]
    cases hdb : db k <;> simp [hdb, Option.getD]

/-- C10: `add_user_word` lower-cases both texts before writing; it
returns true exactly when the connection is live and no user word with
the same `(user_id, lower-cased en_word)` already exists, in which case
the lower-cased row is appended; in every other case (duplicate or
failure) it returns false and leaves the table unchanged. -/
theorem addUserWord_spec (connLive : Bool) (user_words : List UserWord)
    (nextId user_id : Int) (en_word ru_word : String) :
    addUserWord connLive user_words nextId user_id en_word ru_word =
      if connLive = true ∧
          ¬ ∃ w ∈ user_words, w.user_id = user_id ∧
            w.en_word = en_word.toLower then
        (true, user_words ++
          [{ id := nextId, user_id := user_id,
             en_word := en_word.toLower, ru_word := ru_word.toLower }])
      else (false, user_words) := by
  unfold addUserWord
  cases connLive with
  | false => simp
  | true =>
    by_cases hdup : ∃ w ∈ user_words, w.user_id = user_id ∧
        w.en_word = en_word.toLower
    · rw [if_neg (by simp), if_pos, if_neg (by simp [hdup])]
      rcases hdup with ⟨w, hw, h1, h2⟩
      exact List.any_eq_true.mpr ⟨w, hw, by simp [h1, h2]⟩
    · rw [if_neg (by simp), if_neg, if_pos (by simp [hdup])]
      intro hany
      rcases List.any_eq_true.mp hany with ⟨w, hw, hww⟩
      simp only [Bool.and_eq_true, beq_iff_eq] at hww
      exact hdup ⟨w, hw, hww.1, hww.2⟩

end FlashcardBot
